import Mathlib

/-!
Verification of the mesh-processing core of `yocto_shape.h`: the undirected
edge dictionary (`edge_map`), the edge subdivider (`split_edges`), the
element-weight CDF builder (`sample_shape_cdf`), the inverse-CDF sampler
(`sample_shape` / `bsearch_smaller`), and the vertex interpolator
(`interpolate_vert`).  Vertex ids are modelled as integers (C++ `int`),
scalar values as real numbers, `std::vector` as `List`, and the C++
overload sets as suffixed Lean names.  Out-of-range reads and writes on a
view are modelled as defaulted reads and no-op writes.
-/

/-- 3D float vector (`ym::vec3f`). -/
abbrev Vec3 : Type := ℝ × ℝ × ℝ

/-- 2D float vector (`ym::vec2f`). -/
abbrev Vec2 : Type := ℝ × ℝ

/-- Zero vector (`ym::zero3f`). -/
def zero3f : Vec3 := (0, 0, 0)

/-- Componentwise vector addition.  Modelled from the spec: math-vector
primitives of `yocto_math.h` are assumed as a given foundation. -/
def vadd (u v : Vec3) : Vec3 := (u.1 + v.1, u.2.1 + v.2.1, u.2.2 + v.2.2)

/-- Componentwise vector subtraction.  Modelled from the spec: math-vector
primitives of `yocto_math.h` are assumed as a given foundation. -/
def vsub (u v : Vec3) : Vec3 := (u.1 - v.1, u.2.1 - v.2.1, u.2.2 - v.2.2)

/-- Dot product.  Modelled from the spec: math-vector primitives of
`yocto_math.h` are assumed as a given foundation. -/
def dot (u v : Vec3) : ℝ := u.1 * v.1 + u.2.1 * v.2.1 + u.2.2 * v.2.2

/-- Cross product.  Modelled from the spec: math-vector primitives of
`yocto_math.h` are assumed as a given foundation. -/
def cross (u v : Vec3) : Vec3 :=
  (u.2.1 * v.2.2 - u.2.2 * v.2.1,
   u.2.2 * v.1 - u.1 * v.2.2,
   u.1 * v.2.1 - u.2.1 * v.1)

/-- Euclidean length.  Modelled from the spec: math-vector primitives of
`yocto_math.h` are assumed as a given foundation. -/
noncomputable def vlength (v : Vec3) : ℝ := Real.sqrt (dot v v)

/-- Normalization `v / length v`.  Modelled from the spec: math-vector
primitives of `yocto_math.h` are assumed as a given foundation. -/
noncomputable def vnormalize (v : Vec3) : Vec3 :=
  (v.1 / vlength v, v.2.1 / vlength v, v.2.2 / vlength v)

/-- Read element `i` (a C++ `int` index) of a view; out of range reads give
the default `d` (in C++ the access would be undefined). -/
def atI {α : Type} (xs : List α) (d : α) (i : ℤ) : α :=
  if h : 0 ≤ i ∧ i.toNat < xs.length then xs.get ⟨i.toNat, h.2⟩ else d

/-- Write element `i` (a C++ `int` index) of a view; out of range writes are
no-ops (in C++ the access would be undefined). -/
def setI {α : Type} (xs : List α) (i : ℤ) (v : α) : List α :=
  if 0 ≤ i ∧ i.toNat < xs.length then xs.set i.toNat v else xs

/-- Canonical undirected edge key (`edge_map::_edge`): smaller id first. -/
def edgeCanon (e : ℤ × ℤ) : ℤ × ℤ := (min e.1 e.2, max e.1 e.2)

/-- The edge dictionary (`yshape::edge_map`).  The underlying
`unordered_map` from canonical edge to dense id, where the ids assigned are
`0, 1, 2, ...` in first-insertion order, is represented by the list of
canonical edges in insertion order; the id of an edge is its index. -/
structure edge_map where
  edges : List (ℤ × ℤ)
deriving DecidableEq

/-- The empty edge map (`edge_map()`). -/
def edge_map.empty : edge_map := ⟨[]⟩

/-- `edge_map::has_edge`: membership of the canonical key. -/
def edge_map.has_edge (m : edge_map) (e : ℤ × ℤ) : Prop :=
  edgeCanon e ∈ m.edges

instance (m : edge_map) (e : ℤ × ℤ) : Decidable (m.has_edge e) := by
  unfold edge_map.has_edge; infer_instance

/-- `edge_map::size`. -/
def edge_map.size (m : edge_map) : ℕ := m.edges.length

/-- `edge_map::insert`: if the canonical key is absent, map it to the
current size (the next dense id, i.e. the next list index). -/
def edge_map.insert (m : edge_map) (e : ℤ × ℤ) : edge_map :=
  if m.has_edge e then m else ⟨m.edges ++ [edgeCanon e]⟩

/-- First index of `e` in a list of edges (0 on the empty list). -/
def idxOfE : List (ℤ × ℤ) → (ℤ × ℤ) → ℕ
  | [], _ => 0
  | c :: rest, e => if c = e then 0 else idxOfE rest e + 1

/-- `edge_map::operator[]`: the id of the canonical key, or the sentinel
`-1` when absent (after a failed `assert`). -/
def edge_map.lookup (m : edge_map) (e : ℤ × ℤ) : ℤ :=
  if m.has_edge e then (idxOfE m.edges (edgeCanon e) : ℤ) else -1

/-- `yshape::make_edge_map`: insert every line and, for each triangle, its
three directed corner edges `(t[i], t[(i+1)%3])` for `i = 0, 1, 2`. -/
def make_edge_map (lines : List (ℤ × ℤ)) (triangles : List (ℤ × ℤ × ℤ)) :
    edge_map :=
  (triangles.foldl
    (fun m t => ((m.insert (t.1, t.2.1)).insert (t.2.1, t.2.2)).insert
      (t.2.2, t.1))
    (lines.foldl (fun m l => m.insert l) edge_map.empty))

/-- `yshape::split_edges`: build the edge map, emit two children per line,
four children per triangle (three corners plus the center), and the edge
list indexed by edge id.  In the source the final loop writes
`edges[id] = canonicalEdge` over all map entries; since the entries are
exactly the canonical edges with their insertion index as id, that output
equals the insertion-ordered list `em.edges`. -/
def split_edges (nverts : ℤ) (lines : List (ℤ × ℤ))
    (triangles : List (ℤ × ℤ × ℤ)) :
    List (ℤ × ℤ) × List (ℤ × ℤ × ℤ) × List (ℤ × ℤ) :=
  let em := make_edge_map lines triangles
  let tess_lines := lines.flatMap (fun l =>
    [(l.1, nverts + em.lookup l), (nverts + em.lookup l, l.2)])
  let tess_triangles := triangles.flatMap (fun t =>
    [(t.1, nverts + em.lookup (t.1, t.2.1), nverts + em.lookup (t.1, t.2.2)),
     (t.2.1, nverts + em.lookup (t.2.1, t.2.2),
       nverts + em.lookup (t.2.1, t.1)),
     (t.2.2, nverts + em.lookup (t.2.2, t.1),
       nverts + em.lookup (t.2.2, t.2.1)),
     (nverts + em.lookup (t.1, t.2.1), nverts + em.lookup (t.2.1, t.2.2),
       nverts + em.lookup (t.2.2, t.1))])
  (tess_lines, tess_triangles, em.edges)

/-- All vertex ids referenced by a line list. -/
def lineIds (ls : List (ℤ × ℤ)) : List ℤ := ls.flatMap (fun l => [l.1, l.2])

/-- All vertex ids referenced by a triangle list. -/
def triIds (ts : List (ℤ × ℤ × ℤ)) : List ℤ :=
  ts.flatMap (fun t => [t.1, t.2.1, t.2.2])

/-- A line list is valid for a mesh of `n` vertices. -/
def validLines (n : ℤ) (ls : List (ℤ × ℤ)) : Prop :=
  ∀ l ∈ ls, 0 ≤ l.1 ∧ l.1 < n ∧ 0 ≤ l.2 ∧ l.2 < n

/-- A triangle list is valid for a mesh of `n` vertices. -/
def validTris (n : ℤ) (ts : List (ℤ × ℤ × ℤ)) : Prop :=
  ∀ t ∈ ts, (0 ≤ t.1 ∧ t.1 < n) ∧ (0 ≤ t.2.1 ∧ t.2.1 < n) ∧
    (0 ≤ t.2.2 ∧ t.2.2 < n)

/-- In-place `yshape::compute_normals`: clear the output view, accumulate
per-element normals (points get `(0,0,1)`, lines the segment vector,
triangles the cross product of two edge vectors, each normalized first when
`weighted` is false), then normalize every entry.  The output view keeps
its incoming length; writes beyond it are out of range. -/
noncomputable def compute_normals (points : List ℤ) (lines : List (ℤ × ℤ))
    (triangles : List (ℤ × ℤ × ℤ)) (pos : List Vec3) (norm : List Vec3)
    (weighted : Bool) : List Vec3 :=
  let n0 := norm.map (fun _ => zero3f)
  let n1 := points.foldl (fun st p => setI st p (vadd (atI st zero3f p) (0, 0, 1))) n0
  let n2 := lines.foldl (fun st l =>
    let v := vsub (atI pos zero3f l.2) (atI pos zero3f l.1)
    let v := if weighted then v else vnormalize v
    let st := setI st l.1 (vadd (atI st zero3f l.1) v)
    setI st l.2 (vadd (atI st zero3f l.2) v)) n1
  let n3 := triangles.foldl (fun st t =>
    let v := cross (vsub (atI pos zero3f t.2.1) (atI pos zero3f t.1))
      (vsub (atI pos zero3f t.2.2) (atI pos zero3f t.1))
    let v := if weighted then v else vnormalize v
    let st := setI st t.1 (vadd (atI st zero3f t.1) v)
    let st := setI st t.2.1 (vadd (atI st zero3f t.2.1) v)
    setI st t.2.2 (vadd (atI st zero3f t.2.2) v)) n2
  n3.map vnormalize

/-- Value-returning `yshape::compute_normals` overload: it declares a fresh
(empty) `vector<vec3f> norm`, passes it as the output view of the in-place
overload, and returns it. -/
noncomputable def compute_normals_ret (points : List ℤ)
    (lines : List (ℤ × ℤ)) (triangles : List (ℤ × ℤ × ℤ)) (pos : List Vec3)
    (weighted : Bool) : List Vec3 :=
  compute_normals points lines triangles pos [] weighted

/-- Running sums of a weight list with accumulator `acc` (the in-place loop
`cdf[i] += cdf[i-1]`). -/
noncomputable def cumsum (acc : ℝ) : List ℝ → List ℝ
  | [] => []
  | w :: rest => (acc + w) :: cumsum (acc + w) rest

/-- Shared tail of every `sample_shape_cdf` overload: prefix-accumulate the
per-element weights, record the unnormalized total `cdf.back()`, then
divide every entry by `cdf.back()`. -/
noncomputable def build_cdf (ws : List ℝ) : List ℝ × ℝ :=
  let sums := cumsum 0 ws
  let total := sums.getLastD 0
  (sums.map (fun c => c / total), total)

/-- `sample_shape_cdf` overload for points: every element has weight 1. -/
noncomputable def sample_shape_cdf_points (elems : List ℤ) (pos : List Vec3) :
    List ℝ × ℝ :=
  let _ := pos
  build_cdf (elems.map (fun _ => (1 : ℝ)))

/-- `sample_shape_cdf` overload for lines: weight
`length(pos[f[0]] - pos[f[1]])`. -/
noncomputable def sample_shape_cdf_lines (elems : List (ℤ × ℤ))
    (pos : List Vec3) : List ℝ × ℝ :=
  build_cdf (elems.map (fun f =>
    vlength (vsub (atI pos zero3f f.1) (atI pos zero3f f.2))))

/-- `sample_shape_cdf` overload for triangles: weight
`length(cross(pos[f[0]] - pos[f[1]], pos[f[0]] - pos[f[2]])) / 2`. -/
noncomputable def sample_shape_cdf_triangles (elems : List (ℤ × ℤ × ℤ))
    (pos : List Vec3) : List ℝ × ℝ :=
  build_cdf (elems.map (fun f =>
    vlength (cross (vsub (atI pos zero3f f.1) (atI pos zero3f f.2.1))
      (vsub (atI pos zero3f f.1) (atI pos zero3f f.2.2))) / 2))

/-- Combined `sample_shape_cdf` overload: dispatch on the first non-empty
element array in the order points, lines, triangles; `assert(false)` when
all are empty is modelled as `none`. -/
noncomputable def sample_shape_cdf_comb (points : List ℤ)
    (lines : List (ℤ × ℤ)) (triangles : List (ℤ × ℤ × ℤ))
    (pos : List Vec3) : Option (List ℝ × ℝ) :=
  if points ≠ [] then some (sample_shape_cdf_points points pos)
  else if lines ≠ [] then some (sample_shape_cdf_lines lines pos)
  else if triangles ≠ [] then some (sample_shape_cdf_triangles triangles pos)
  else none

/-- Loop of `yshape::_bsearch_smaller`: `while (low != high)` narrow
`[low, high)` around the first entry not less than `x`. -/
def bsLoop {α : Type} [LinearOrder α] (x : α) (a : List α)
    (low high : ℕ) : ℕ :=
  if h : low < high then
    if a.getD ((low + high) / 2) x < x then bsLoop x a ((low + high) / 2 + 1) high
    else bsLoop x a low ((low + high) / 2)
  else low
termination_by high - low
decreasing_by
  all_goals omega

/-- `yshape::_bsearch_smaller`: binary search over `[0, a.length)`. -/
def bsearch_smaller {α : Type} [LinearOrder α] (x : α) (a : List α) : ℕ :=
  bsLoop x a 0 a.length

/-- `sample_shape(cdf, ern, eid)` overload for points: only the element id
is produced. -/
noncomputable def sample_shape_eid (cdf : List ℝ) (ern : ℝ) : ℕ :=
  bsearch_smaller ern cdf

/-- `sample_shape(cdf, ern, uvrn, eid, euv)` overload for lines: the extra
uniform draw is returned unchanged as the parametric coordinate. -/
noncomputable def sample_shape_line (cdf : List ℝ) (ern : ℝ) (uvrn : ℝ) :
    ℕ × ℝ :=
  (bsearch_smaller ern cdf, uvrn)

/-- `sample_shape(cdf, ern, uvrn, eid, euv)` overload for triangles: the 2D
uniform draw is remapped to `(1 - sqrt u, v * sqrt u)`. -/
noncomputable def sample_shape_triangle (cdf : List ℝ) (ern : ℝ)
    (uvrn : Vec2) : ℕ × Vec2 :=
  (bsearch_smaller ern cdf,
   (1 - Real.sqrt uvrn.1, uvrn.2 * Real.sqrt uvrn.1))

/-- Combined `sample_shape` overload: dispatch on the first non-empty CDF
in the order points, lines, triangles; `assert(false)` when all are empty
is modelled as `none`. -/
noncomputable def sample_shape_comb (point_cdf line_cdf triangle_cdf :
    List ℝ) (ern : ℝ) (uvrn : Vec2) : Option (ℕ × Vec2) :=
  if point_cdf ≠ [] then some (sample_shape_eid point_cdf ern, uvrn)
  else if line_cdf ≠ [] then
    some ((sample_shape_line line_cdf ern uvrn.1).1,
      ((sample_shape_line line_cdf ern uvrn.1).2, uvrn.2))
  else if triangle_cdf ≠ [] then
    some (sample_shape_triangle triangle_cdf ern uvrn)
  else none

/-- `interpolate_vert` overload for lines:
`vert[lines[eid][0]] * (1 - euv[0]) + vert[lines[eid][1]] * euv[1]`.
Note the first weight uses `euv[0]` and the second `euv[1]`. -/
def interpolate_vert_lines {T : Type} [AddCommMonoid T] [Module ℝ T]
    (lines : List (ℤ × ℤ)) (vert : List T) (eid : ℤ) (euv : Vec2) : T :=
  (1 - euv.1) • atI vert 0 (atI lines (0, 0) eid).1 +
    euv.2 • atI vert 0 (atI lines (0, 0) eid).2

/-- `interpolate_vert` overload for triangles:
`vert[t[0]] * (1 - euv[0] - euv[1]) + vert[t[1]] * euv[0] + vert[t[2]] * euv[1]`. -/
def interpolate_vert_triangles {T : Type} [AddCommMonoid T] [Module ℝ T]
    (triangles : List (ℤ × ℤ × ℤ)) (vert : List T) (eid : ℤ) (euv : Vec2) :
    T :=
  (1 - euv.1 - euv.2) • atI vert 0 (atI triangles (0, 0, 0) eid).1 +
    euv.1 • atI vert 0 (atI triangles (0, 0, 0) eid).2.1 +
    euv.2 • atI vert 0 (atI triangles (0, 0, 0) eid).2.2

/-- Combined `interpolate_vert` overload: dispatch on the first non-empty
element array in the order points, lines, triangles; the trailing
`assert(false); return T();` when all are empty is modelled as `none`. -/
def interpolate_vert_comb {T : Type} [AddCommMonoid T] [Module ℝ T]
    (points : List ℤ) (lines : List (ℤ × ℤ))
    (triangles : List (ℤ × ℤ × ℤ)) (vert : List T) (eid : ℤ) (euv : Vec2) :
    Option T :=
  if points ≠ [] then some (atI vert 0 (atI points 0 eid))
  else if lines ≠ [] then some (interpolate_vert_lines lines vert eid euv)
  else if triangles ≠ [] then
    some (interpolate_vert_triangles triangles vert eid euv)
  else none

/-! ### Edge map lemmas -/

theorem edgeCanon_symm (a b : ℤ) : edgeCanon (a, b) = edgeCanon (b, a) := by
  simp [edgeCanon, min_comm, max_comm]

theorem edgeCanon_idem (e : ℤ × ℤ) : edgeCanon (edgeCanon e) = edgeCanon e := by
  unfold edgeCanon
  dsimp only
  rw [min_eq_left min_le_max, max_eq_right min_le_max]

theorem has_edge_canon (m : edge_map) (e : ℤ × ℤ) :
    m.has_edge (edgeCanon e) ↔ m.has_edge e := by
  unfold edge_map.has_edge
  rw [edgeCanon_idem]

theorem idxOfE_lt_length : ∀ {l : List (ℤ × ℤ)} {e : ℤ × ℤ}, e ∈ l →
    idxOfE l e < l.length
  | c :: rest, e, h => by
    by_cases hc : c = e
    · simp [idxOfE, hc]
    · have h' : e ∈ rest := by
        rcases List.mem_cons.mp h with h0 | h0
        · exact absurd h0.symm hc
        · exact h0
      simpa [idxOfE, hc] using idxOfE_lt_length h'

theorem idxOfE_append_left : ∀ {l : List (ℤ × ℤ)} {e : ℤ × ℤ}, e ∈ l →
    ∀ (t : List (ℤ × ℤ)), idxOfE (l ++ t) e = idxOfE l e
  | c :: rest, e, h, t => by
    by_cases hc : c = e
    · simp [idxOfE, hc]
    · have h' : e ∈ rest := by
        rcases List.mem_cons.mp h with h0 | h0
        · exact absurd h0.symm hc
        · exact h0
      simp [idxOfE, hc, idxOfE_append_left h' t]

theorem idxOfE_append_self {l : List (ℤ × ℤ)} {e : ℤ × ℤ} (h : e ∉ l) :
    idxOfE (l ++ [e]) e = l.length := by
  induction l with
  | nil => simp [idxOfE]
  | cons c rest ih =>
    have hc : c ≠ e := fun hce => h (hce ▸ List.mem_cons_self c rest)
    have hr : e ∉ rest := fun hm => h (List.mem_cons_of_mem c hm)
    simp [idxOfE, hc, ih hr]

theorem idxOfE_get : ∀ {l : List (ℤ × ℤ)}, l.Nodup → ∀ (i : ℕ)
    (h : i < l.length), idxOfE l (l.get ⟨i, h⟩) = i
  | [], _, i, h => absurd h (by simp)
  | c :: rest, hnd, 0, h => by simp [idxOfE]
  | c :: rest, hnd, j + 1, h => by
    have hj : j < rest.length := Nat.lt_of_succ_lt_succ (by simpa using h)
    have hmem : rest.get ⟨j, hj⟩ ∈ rest := List.get_mem rest j hj
    have hnotin : c ∉ rest := (List.nodup_cons.mp hnd).1
    have hc : c ≠ rest.get ⟨j, hj⟩ := fun hce => hnotin (hce ▸ hmem)
    have ih := idxOfE_get (List.nodup_cons.mp hnd).2 j hj
    show (if c = rest.get ⟨j, hj⟩ then 0 else
      idxOfE rest (rest.get ⟨j, hj⟩) + 1) = j + 1
    rw [if_neg hc, ih]

theorem get_idxOfE : ∀ {l : List (ℤ × ℤ)} {e : ℤ × ℤ} (h : e ∈ l),
    l.get ⟨idxOfE l e, idxOfE_lt_length h⟩ = e
  | c :: rest, e, h => by
    by_cases hc : c = e
    · have h0 : idxOfE (c :: rest) e = 0 := by simp [idxOfE, hc]
      rw [show (⟨idxOfE (c :: rest) e, idxOfE_lt_length h⟩ :
        Fin (c :: rest).length) = ⟨0, Nat.succ_pos _⟩ from Fin.ext h0]
      exact hc
    · have h' : e ∈ rest := by
        rcases List.mem_cons.mp h with h0 | h0
        · exact absurd h0.symm hc
        · exact h0
      have hidx : idxOfE (c :: rest) e = idxOfE rest e + 1 := by
        simp [idxOfE, hc]
      have := get_idxOfE h'
      rw [show (⟨idxOfE (c :: rest) e, idxOfE_lt_length h⟩ :
        Fin (c :: rest).length) = ⟨idxOfE rest e + 1, by
          simpa [hidx] using idxOfE_lt_length h⟩ from Fin.ext hidx]
      simpa using this

theorem insert_edges_of_has {m : edge_map} {e : ℤ × ℤ} (h : m.has_edge e) :
    m.insert e = m := by
  simp [edge_map.insert, h]

theorem insert_edges_of_not_has {m : edge_map} {e : ℤ × ℤ}
    (h : ¬ m.has_edge e) : (m.insert e).edges = m.edges ++ [edgeCanon e] := by
  simp [edge_map.insert, h]

theorem has_edge_insert_self (m : edge_map) (e : ℤ × ℤ) :
    (m.insert e).has_edge e := by
  by_cases h : m.has_edge e
  · simpa [insert_edges_of_has h] using h
  · simp [edge_map.has_edge, insert_edges_of_not_has h]

theorem has_edge_insert_of_has {m : edge_map} {e e' : ℤ × ℤ}
    (h : m.has_edge e') : (m.insert e).has_edge e' := by
  by_cases he : m.has_edge e
  · simpa [insert_edges_of_has he] using h
  · simp [edge_map.has_edge, insert_edges_of_not_has he]
    exact Or.inl h

theorem lookup_insert_of_has {m : edge_map} {e e' : ℤ × ℤ}
    (h : m.has_edge e') : (m.insert e).lookup e' = m.lookup e' := by
  by_cases he : m.has_edge e
  · rw [insert_edges_of_has he]
  · unfold edge_map.lookup
    rw [if_pos (has_edge_insert_of_has h), if_pos h,
      insert_edges_of_not_has he, idxOfE_append_left h]

theorem lookup_insert_fresh {m : edge_map} {e : ℤ × ℤ}
    (h : ¬ m.has_edge e) : (m.insert e).lookup e = (m.size : ℤ) := by
  unfold edge_map.lookup
  rw [if_pos (has_edge_insert_self m e), insert_edges_of_not_has h,
    idxOfE_append_self h]
  rfl

theorem lookup_canon (m : edge_map) (e : ℤ × ℤ) :
    m.lookup (edgeCanon e) = m.lookup e := by
  unfold edge_map.lookup edge_map.has_edge
  simp only [edgeCanon_idem]

theorem lookup_nonneg_lt_size {m : edge_map} {e : ℤ × ℤ}
    (h : m.has_edge e) : 0 ≤ m.lookup e ∧ m.lookup e < (m.size : ℤ) := by
  unfold edge_map.lookup
  rw [if_pos h]
  exact ⟨Int.natCast_nonneg _, by exact_mod_cast idxOfE_lt_length h⟩

/-- C7: inserting `(a,b)` then `(b,a)` assigns both the same id and the
second insertion is a no-op leaving the size unchanged; re-inserting any
present edge is a no-op that changes no previously assigned id; a fresh
edge receives id `size` (dense first-insertion order), and every assigned
id lies in `[0, size)`. -/
theorem edge_map_insert_canonical (m : edge_map) (a b : ℤ) (e : ℤ × ℤ)
    (_hab : a ≠ b) :
    ((m.insert (a, b)).insert (b, a) = m.insert (a, b)) ∧
    ((m.insert (a, b)).lookup (a, b) = (m.insert (a, b)).lookup (b, a)) ∧
    (((m.insert (a, b)).insert (b, a)).size = (m.insert (a, b)).size) ∧
    (m.has_edge e → m.insert e = m) ∧
    (∀ e', m.has_edge e' → (m.insert e).lookup e' = m.lookup e') ∧
    (¬ m.has_edge e → (m.insert e).lookup e = (m.size : ℤ)) ∧
    (∀ e', m.has_edge e' → 0 ≤ m.lookup e' ∧ m.lookup e' < (m.size : ℤ)) := by
  have hcanon : edgeCanon (a, b) = edgeCanon (b, a) := edgeCanon_symm a b
  have hhas : (m.insert (a, b)).has_edge (b, a) := by
    have := has_edge_insert_self m (a, b)
    unfold edge_map.has_edge at this ⊢
    rwa [← hcanon]
  refine ⟨insert_edges_of_has hhas, ?_, ?_, fun h => insert_edges_of_has h,
    fun e' h => lookup_insert_of_has h, fun h => lookup_insert_fresh h,
    fun e' h => lookup_nonneg_lt_size h⟩
  · unfold edge_map.lookup edge_map.has_edge
    simp only [hcanon]
  · rw [insert_edges_of_has hhas]

/-- Witness for C7 at the empty map with `a = 0`, `b = 1`, `e = (0, 1)`. -/
theorem edge_map_insert_canonical_witness :
    ((edge_map.empty.insert (0, 1)).insert (1, 0) =
      edge_map.empty.insert (0, 1)) ∧
    ((edge_map.empty.insert (0, 1)).lookup (0, 1) =
      (edge_map.empty.insert (0, 1)).lookup (1, 0)) ∧
    (((edge_map.empty.insert (0, 1)).insert (1, 0)).size =
      (edge_map.empty.insert (0, 1)).size) ∧
    (edge_map.empty.has_edge (0, 1) → edge_map.empty.insert (0, 1) =
      edge_map.empty) ∧
    (∀ e', edge_map.empty.has_edge e' →
      (edge_map.empty.insert (0, 1)).lookup e' = edge_map.empty.lookup e') ∧
    (¬ edge_map.empty.has_edge (0, 1) →
      (edge_map.empty.insert (0, 1)).lookup (0, 1) =
        (edge_map.empty.size : ℤ)) ∧
    (∀ e', edge_map.empty.has_edge e' →
      0 ≤ edge_map.empty.lookup e' ∧
        edge_map.empty.lookup e' < (edge_map.empty.size : ℤ)) :=
  edge_map_insert_canonical edge_map.empty 0 1 (0, 1) (by decide)

/-- C8: on the single triangle `(0,1,2)` with three vertices, `split_edges`
assigns edge ids `(0,1) = 0`, `(1,2) = 1`, `(0,2) = 2` and returns exactly
the expected edge list and the four split triangles. -/
theorem split_edges_single_triangle :
    split_edges 3 [] [((0 : ℤ), 1, 2)] =
      ([], [(0, 3, 5), (1, 4, 3), (2, 5, 4), (3, 4, 5)],
        [(0, 1), (1, 2), (0, 2)]) ∧
    (make_edge_map [] [((0 : ℤ), 1, 2)]).lookup (0, 1) = 0 ∧
    (make_edge_map [] [((0 : ℤ), 1, 2)]).lookup (1, 2) = 1 ∧
    (make_edge_map [] [((0 : ℤ), 1, 2)]).lookup (0, 2) = 2 := by
  decide

/-! ### Binary search lemmas -/

theorem sorted_getD_mono {α : Type} [LinearOrder α] {a : List α}
    (hs : a.Sorted (fun u v => u ≤ v)) {i j : ℕ} (hij : i ≤ j)
    (hj : j < a.length) (x : α) : a.getD i x ≤ a.getD j x := by
  have hi : i < a.length := lt_of_le_of_lt hij hj
  rw [List.getD_eq_getElem a x hi, List.getD_eq_getElem a x hj]
  have := List.Sorted.rel_get_of_le hs
    (a := ⟨i, hi⟩) (b := ⟨j, hj⟩) (by exact hij)
  simpa [List.get_eq_getElem] using this

theorem bsLoop_bounds {α : Type} [LinearOrder α] (x : α) (a : List α) :
    ∀ (d low high : ℕ), high - low ≤ d → low ≤ high →
      low ≤ bsLoop x a low high ∧ bsLoop x a low high ≤ high := by
  intro d
  induction d with
  | zero =>
    intro low high hd hle
    have heq : low = high := by omega
    subst heq
    rw [bsLoop]
    simp
  | succ d ih =>
    intro low high hd hle
    rw [bsLoop]
    by_cases h : low < high
    · rw [dif_pos h]
      have hm1 : low ≤ (low + high) / 2 := by omega
      have hm2 : (low + high) / 2 < high := by omega
      by_cases hx : a.getD ((low + high) / 2) x < x
      · rw [if_pos hx]
        have hr := ih ((low + high) / 2 + 1) high (by omega) (by omega)
        exact ⟨le_trans (by omega) hr.1, hr.2⟩
      · rw [if_neg hx]
        have hr := ih low ((low + high) / 2) (by omega) (by omega)
        exact ⟨hr.1, le_trans hr.2 (by omega)⟩
    · rw [dif_neg h]
      omega

theorem bsLoop_found {α : Type} [LinearOrder α] (x : α) (a : List α)
    (hs : a.Sorted (fun u v => u ≤ v)) :
    ∀ (d low high : ℕ), high - low ≤ d → low ≤ high → high ≤ a.length →
      (∀ j, j < low → a.getD j x < x) →
      (∀ j, high ≤ j → j < a.length → x ≤ a.getD j x) →
      (∀ j, j < bsLoop x a low high → a.getD j x < x) ∧
      (bsLoop x a low high < a.length → x ≤ a.getD (bsLoop x a low high) x) := by
  intro d
  induction d with
  | zero =>
    intro low high hd hle hlen hpre hpost
    have heq : low = high := by omega
    subst heq
    rw [bsLoop]
    simp only [lt_irrefl, dite_false]
    exact ⟨hpre, fun hlt => hpost low le_rfl hlt⟩
  | succ d ih =>
    intro low high hd hle hlen hpre hpost
    rw [bsLoop]
    by_cases h : low < high
    · rw [dif_pos h]
      have hm1 : low ≤ (low + high) / 2 := by omega
      have hm2 : (low + high) / 2 < high := by omega
      have hmlen : (low + high) / 2 < a.length := lt_of_lt_of_le hm2 hlen
      by_cases hx : a.getD ((low + high) / 2) x < x
      · rw [if_pos hx]
        refine ih ((low + high) / 2 + 1) high (by omega) (by omega) hlen
          (fun j hj => ?_) hpost
        have hjm : j ≤ (low + high) / 2 := by omega
        exact lt_of_le_of_lt (sorted_getD_mono hs hjm hmlen x) hx
      · rw [if_neg hx]
        refine ih low ((low + high) / 2) (by omega) (by omega) (by omega)
          hpre (fun j hjge hjlt => ?_)
        exact le_trans (not_lt.mp hx) (sorted_getD_mono hs hjge hjlt x)
    · rw [dif_neg h]
      have heq : low = high := by omega
      exact ⟨hpre, fun hlt => hpost low (heq ▸ le_rfl) hlt⟩

/-- C5: on a non-decreasing CDF, when some entry is at least `ern`, the
sampler returns the smallest index `i` with `cdf[i] ≥ ern`; with a
non-negative first entry, `ern = 0` always selects element 0. -/
theorem sample_shape_eid_least (cdf : List ℝ) (ern : ℝ)
    (hs : cdf.Sorted (fun u v => u ≤ v))
    (hex : ∃ i, ∃ h : i < cdf.length, ern ≤ cdf.get ⟨i, h⟩) :
    (sample_shape_eid cdf ern < cdf.length ∧
      ern ≤ cdf.getD (sample_shape_eid cdf ern) ern ∧
      (∀ j, j < sample_shape_eid cdf ern → cdf.getD j ern < ern)) ∧
    (cdf ≠ [] → 0 ≤ cdf.getD 0 0 → sample_shape_eid cdf 0 = 0) := by
  have hb := bsLoop_bounds ern cdf cdf.length 0 cdf.length (by omega)
    (by omega)
  have hf := bsLoop_found ern cdf hs cdf.length 0 cdf.length (by omega)
    (by omega) le_rfl (fun j hj => absurd hj (Nat.not_lt_zero j))
    (fun j hge hlt => absurd (lt_of_le_of_lt hge hlt) (lt_irrefl _))
  obtain ⟨i, hi, hix⟩ := hex
  have hrdef : sample_shape_eid cdf ern = bsLoop ern cdf 0 cdf.length := rfl
  constructor
  · rw [hrdef]
    have hrlt : bsLoop ern cdf 0 cdf.length < cdf.length := by
      rcases lt_or_eq_of_le hb.2 with hlt | heq
      · exact hlt
      · exfalso
        have := hf.1 i (by rw [heq]; exact hi)
        rw [List.getD_eq_getElem cdf ern hi] at this
        simp only [List.get_eq_getElem] at hix
        exact absurd hix (not_le.mpr this)
    exact ⟨hrlt, hf.2 hrlt, hf.1⟩
  · intro hne hfirst
    have hb0 := bsLoop_bounds (0 : ℝ) cdf cdf.length 0 cdf.length (by omega)
      (by omega)
    have hf0 := bsLoop_found (0 : ℝ) cdf hs cdf.length 0 cdf.length
      (by omega) (by omega) le_rfl (fun j hj => absurd hj (Nat.not_lt_zero j))
      (fun j hge hlt => absurd (lt_of_le_of_lt hge hlt) (lt_irrefl _))
    have hr0def : sample_shape_eid cdf 0 = bsLoop 0 cdf 0 cdf.length := rfl
    rw [hr0def]
    by_contra hne0
    have hpos : 0 < bsLoop 0 cdf 0 cdf.length := Nat.pos_of_ne_zero hne0
    have := hf0.1 0 hpos
    have hlen : 0 < cdf.length := List.length_pos.mpr hne
    rw [List.getD_eq_getElem cdf 0 hlen] at this hfirst
    exact absurd hfirst (not_le.mpr this)

/-- Witness for C5 at `cdf = [1]`, `ern = 0`. -/
theorem sample_shape_eid_least_witness :
    ((sample_shape_eid [(1 : ℝ)] 0 < ([(1 : ℝ)]).length ∧
      (0 : ℝ) ≤ ([(1 : ℝ)]).getD (sample_shape_eid [(1 : ℝ)] 0) 0 ∧
      (∀ j, j < sample_shape_eid [(1 : ℝ)] 0 →
        ([(1 : ℝ)]).getD j 0 < 0)) ∧
    ([(1 : ℝ)] ≠ ([] : List ℝ) → (0 : ℝ) ≤ ([(1 : ℝ)]).getD 0 0 →
      sample_shape_eid [(1 : ℝ)] 0 = 0)) :=
  sample_shape_eid_least [(1 : ℝ)] 0 (by simp)
    ⟨0, by simp, by simp⟩

/-- C10: the sampler's result is always in `[0, cdf.length]`; on the empty
CDF it is 0 (no error is signalled); on a non-decreasing CDF it equals
`cdf.length` exactly when every entry is strictly less than `ern`. -/
theorem sample_shape_eid_range (cdf : List ℝ) (ern : ℝ) :
    sample_shape_eid cdf ern ≤ cdf.length ∧
    sample_shape_eid ([] : List ℝ) ern = 0 ∧
    (cdf.Sorted (fun u v => u ≤ v) →
      (sample_shape_eid cdf ern = cdf.length ↔
        ∀ j (h : j < cdf.length), cdf.get ⟨j, h⟩ < ern)) := by
  have hb := bsLoop_bounds ern cdf cdf.length 0 cdf.length (by omega)
    (by omega)
  refine ⟨hb.2, ?_, ?_⟩
  · show bsLoop ern ([] : List ℝ) 0 ([] : List ℝ).length = 0
    rw [bsLoop]
    simp
  · intro hs
    have hf := bsLoop_found ern cdf hs cdf.length 0 cdf.length (by omega)
      (by omega) le_rfl (fun j hj => absurd hj (Nat.not_lt_zero j))
      (fun j hge hlt => absurd (lt_of_le_of_lt hge hlt) (lt_irrefl _))
    constructor
    · intro heq j hj
      have := hf.1 j (by rw [show bsLoop ern cdf 0 cdf.length =
        sample_shape_eid cdf ern from rfl, heq]; exact hj)
      rw [List.getD_eq_getElem cdf ern hj] at this
      simpa [List.get_eq_getElem] using this
    · intro hall
      rcases lt_or_eq_of_le hb.2 with hlt | heq
      · exfalso
        have hge := hf.2 hlt
        rw [List.getD_eq_getElem cdf ern hlt] at hge
        have hlt' := hall _ hlt
        simp only [List.get_eq_getElem] at hlt'
        exact absurd hge (not_le.mpr hlt')
      · exact heq

/-- Witness for C10 at `cdf = [1]`, `ern = 1/2` (the third conjunct's
monotonicity premise discharged at the same input). -/
theorem sample_shape_eid_range_witness :
    sample_shape_eid [(1 : ℝ)] (1 / 2) ≤ ([(1 : ℝ)]).length ∧
    (sample_shape_eid [(1 : ℝ)] (1 / 2) = ([(1 : ℝ)]).length ↔
      ∀ j (h : j < ([(1 : ℝ)]).length),
        ([(1 : ℝ)]).get ⟨j, h⟩ < 1 / 2) :=
  ⟨(sample_shape_eid_range [(1 : ℝ)] (1 / 2)).1,
    (sample_shape_eid_range [(1 : ℝ)] (1 / 2)).2.2 (by simp)⟩

/-- C6: for `(u, v) ∈ [0,1)²`, the triangle sampler's remapped coordinate
`euv = (1 - sqrt u, v * sqrt u)` gives barycentric weights
`(1 - euv[0] - euv[1], euv[0], euv[1])` that are each in `[0, 1]` and sum
to 1. -/
theorem sample_shape_triangle_weights (cdf : List ℝ) (ern : ℝ) (u v : ℝ)
    (hu0 : 0 ≤ u) (hu1 : u < 1) (hv0 : 0 ≤ v) (hv1 : v < 1) :
    (0 ≤ 1 - (sample_shape_triangle cdf ern (u, v)).2.1 -
        (sample_shape_triangle cdf ern (u, v)).2.2 ∧
      1 - (sample_shape_triangle cdf ern (u, v)).2.1 -
        (sample_shape_triangle cdf ern (u, v)).2.2 ≤ 1) ∧
    (0 ≤ (sample_shape_triangle cdf ern (u, v)).2.1 ∧
      (sample_shape_triangle cdf ern (u, v)).2.1 ≤ 1) ∧
    (0 ≤ (sample_shape_triangle cdf ern (u, v)).2.2 ∧
      (sample_shape_triangle cdf ern (u, v)).2.2 ≤ 1) ∧
    (1 - (sample_shape_triangle cdf ern (u, v)).2.1 -
        (sample_shape_triangle cdf ern (u, v)).2.2) +
      (sample_shape_triangle cdf ern (u, v)).2.1 +
      (sample_shape_triangle cdf ern (u, v)).2.2 = 1 := by
  have hs0 : 0 ≤ Real.sqrt u := Real.sqrt_nonneg u
  have hs1 : Real.sqrt u < 1 := by
    rw [show (1 : ℝ) = Real.sqrt 1 from Real.sqrt_one.symm]
    exact Real.sqrt_lt_sqrt hu0 hu1
  simp only [sample_shape_triangle]
  refine ⟨⟨by nlinarith, by nlinarith⟩, ⟨by nlinarith, by nlinarith⟩,
    ⟨by nlinarith, by nlinarith⟩, by ring⟩

/-- Witness for C6 at `cdf = [1]`, `ern = 0`, `(u, v) = (0, 0)`. -/
theorem sample_shape_triangle_weights_witness :
    (0 ≤ 1 - (sample_shape_triangle [(1 : ℝ)] 0 (0, 0)).2.1 -
        (sample_shape_triangle [(1 : ℝ)] 0 (0, 0)).2.2 ∧
      1 - (sample_shape_triangle [(1 : ℝ)] 0 (0, 0)).2.1 -
        (sample_shape_triangle [(1 : ℝ)] 0 (0, 0)).2.2 ≤ 1) ∧
    (0 ≤ (sample_shape_triangle [(1 : ℝ)] 0 (0, 0)).2.1 ∧
      (sample_shape_triangle [(1 : ℝ)] 0 (0, 0)).2.1 ≤ 1) ∧
    (0 ≤ (sample_shape_triangle [(1 : ℝ)] 0 (0, 0)).2.2 ∧
      (sample_shape_triangle [(1 : ℝ)] 0 (0, 0)).2.2 ≤ 1) ∧
    (1 - (sample_shape_triangle [(1 : ℝ)] 0 (0, 0)).2.1 -
        (sample_shape_triangle [(1 : ℝ)] 0 (0, 0)).2.2) +
      (sample_shape_triangle [(1 : ℝ)] 0 (0, 0)).2.1 +
      (sample_shape_triangle [(1 : ℝ)] 0 (0, 0)).2.2 = 1 :=
  sample_shape_triangle_weights [(1 : ℝ)] 0 0 0 (by norm_num) (by norm_num)
    (by norm_num) (by norm_num)

/-! ### CDF builder lemmas -/

theorem cumsum_length (acc : ℝ) (ws : List ℝ) :
    (cumsum acc ws).length = ws.length := by
  induction ws generalizing acc with
  | nil => simp [cumsum]
  | cons w rest ih => simp [cumsum, ih]

theorem cumsum_getLastD (acc d : ℝ) (ws : List ℝ) (h : ws ≠ []) :
    (cumsum acc ws).getLastD d = acc + ws.sum := by
  induction ws generalizing acc d with
  | nil => exact absurd rfl h
  | cons w rest ih =>
    cases rest with
    | nil => simp [cumsum]
    | cons w2 r2 =>
      rw [cumsum, List.getLastD_cons, ih (acc + w) (acc + w)
        (List.cons_ne_nil w2 r2)]
      simp only [List.sum_cons]
      ring

theorem cumsum_chain (acc : ℝ) (ws : List ℝ) (h : ∀ w ∈ ws, 0 ≤ w) :
    (cumsum acc ws).Chain' (fun u v => u ≤ v) ∧
    ∀ y ∈ cumsum acc ws, acc ≤ y := by
  induction ws generalizing acc with
  | nil => simp [cumsum]
  | cons w rest ih =>
    have hw : 0 ≤ w := h w (List.mem_cons_self w rest)
    have hr : ∀ w' ∈ rest, 0 ≤ w' :=
      fun w' hw' => h w' (List.mem_cons_of_mem w hw')
    obtain ⟨hc, hge⟩ := ih (acc + w) hr
    constructor
    · rw [cumsum]
      refine List.chain'_cons'.mpr ⟨?_, hc⟩
      intro b hb
      exact hge b (List.mem_of_mem_head? hb)
    · intro y hy
      rw [cumsum] at hy
      rcases List.mem_cons.mp hy with rfl | hy
      · linarith
      · linarith [hge y hy]

theorem getLastD_map_of_ne_nil (f : ℝ → ℝ) (l : List ℝ) (h : l ≠ [])
    (d d' : ℝ) : (l.map f).getLastD d = f (l.getLastD d') := by
  obtain ⟨x, hx⟩ : ∃ x, l.getLast? = some x := by
    cases hl : l.getLast? with
    | none => exact absurd (List.getLast?_eq_none_iff.mp hl) h
    | some x => exact ⟨x, rfl⟩
  rw [List.getLastD_eq_getLast?, List.getLastD_eq_getLast?,
    List.getLast?_map, hx]
  rfl

theorem build_cdf_spec (ws : List ℝ) (hne : ws ≠ [])
    (hnn : ∀ w ∈ ws, 0 ≤ w) (hpos : 0 < ws.sum) :
    (build_cdf ws).1.Sorted (fun u v => u ≤ v) ∧
    (build_cdf ws).1.getLastD 0 = 1 ∧
    (build_cdf ws).2 = ws.sum := by
  have hlast : (cumsum 0 ws).getLastD 0 = ws.sum := by
    rw [cumsum_getLastD 0 0 ws hne]
    ring
  have hcne : cumsum 0 ws ≠ [] := by
    intro hnil
    have := cumsum_length 0 ws
    rw [hnil] at this
    exact hne (List.length_eq_zero.mp this.symm)
  have hsorted : (cumsum 0 ws).Sorted (fun u v => u ≤ v) :=
    List.chain'_iff_pairwise.mp (cumsum_chain 0 ws hnn).1
  refine ⟨?_, ?_, ?_⟩
  · show ((cumsum 0 ws).map
      (fun c => c / (cumsum 0 ws).getLastD 0)).Sorted (fun u v => u ≤ v)
    exact hsorted.map _ (fun a b hab =>
      div_le_div_of_le_of_nonneg hab (by rw [hlast]; exact hpos.le))
  · show ((cumsum 0 ws).map
      (fun c => c / (cumsum 0 ws).getLastD 0)).getLastD 0 = 1
    rw [getLastD_map_of_ne_nil _ _ hcne 0 0, hlast]
    exact div_self (ne_of_gt hpos)
  · show (cumsum 0 ws).getLastD 0 = ws.sum
    exact hlast

theorem sum_map_one (l : List ℤ) :
    (l.map (fun _ => (1 : ℝ))).sum = (l.length : ℝ) := by
  induction l with
  | nil => simp
  | cons a l ih =>
    simp [ih]
    ring

/-- C4: for non-empty element arrays (with a positive total measure for
lines and triangles), every `sample_shape_cdf` overload builds a
non-decreasing CDF whose last entry equals 1 exactly, and returns as
`weight` the unnormalized sum of the per-element raw weights: the count
for points, the Euclidean endpoint distance for lines, and half the
cross-product magnitude for triangles. -/
theorem sample_shape_cdf_normalized (pts : List ℤ) (lns : List (ℤ × ℤ))
    (tris : List (ℤ × ℤ × ℤ)) (pos : List Vec3)
    (hp : pts ≠ []) (hl : lns ≠ []) (ht : tris ≠ [])
    (hlpos : 0 < (sample_shape_cdf_lines lns pos).2)
    (htpos : 0 < (sample_shape_cdf_triangles tris pos).2) :
    ((sample_shape_cdf_points pts pos).1.Sorted (fun u v => u ≤ v) ∧
      (sample_shape_cdf_points pts pos).1.getLastD 0 = 1 ∧
      (sample_shape_cdf_points pts pos).2 = (pts.length : ℝ)) ∧
    ((sample_shape_cdf_lines lns pos).1.Sorted (fun u v => u ≤ v) ∧
      (sample_shape_cdf_lines lns pos).1.getLastD 0 = 1 ∧
      (sample_shape_cdf_lines lns pos).2 = (lns.map (fun f =>
        vlength (vsub (atI pos zero3f f.1) (atI pos zero3f f.2)))).sum) ∧
    ((sample_shape_cdf_triangles tris pos).1.Sorted (fun u v => u ≤ v) ∧
      (sample_shape_cdf_triangles tris pos).1.getLastD 0 = 1 ∧
      (sample_shape_cdf_triangles tris pos).2 = (tris.map (fun f =>
        vlength (cross (vsub (atI pos zero3f f.1) (atI pos zero3f f.2.1))
          (vsub (atI pos zero3f f.1) (atI pos zero3f f.2.2))) / 2)).sum) := by
  refine ⟨?_, ?_, ?_⟩
  · have hne : pts.map (fun _ => (1 : ℝ)) ≠ [] := by
      simpa using hp
    have hnn : ∀ w ∈ pts.map (fun _ => (1 : ℝ)), 0 ≤ w := by
      intro w hw
      rcases List.mem_map.mp hw with ⟨a, _, rfl⟩
      norm_num
    have hpos : 0 < (pts.map (fun _ => (1 : ℝ))).sum := by
      rw [sum_map_one]
      exact_mod_cast List.length_pos.mpr hp
    obtain ⟨h1, h2, h3⟩ := build_cdf_spec _ hne hnn hpos
    exact ⟨h1, h2, by rw [show (sample_shape_cdf_points pts pos).2 =
      (build_cdf (pts.map (fun _ => (1 : ℝ)))).2 from rfl, h3, sum_map_one]⟩
  · have hne : lns.map (fun f =>
        vlength (vsub (atI pos zero3f f.1) (atI pos zero3f f.2))) ≠ [] := by
      simpa using hl
    have hnn : ∀ w ∈ lns.map (fun f =>
        vlength (vsub (atI pos zero3f f.1) (atI pos zero3f f.2))), 0 ≤ w := by
      intro w hw
      rcases List.mem_map.mp hw with ⟨a, _, rfl⟩
      exact Real.sqrt_nonneg _
    have hpos : 0 < (lns.map (fun f =>
        vlength (vsub (atI pos zero3f f.1) (atI pos zero3f f.2)))).sum := by
      have heq : (sample_shape_cdf_lines lns pos).2 =
          (cumsum 0 (lns.map (fun f =>
            vlength (vsub (atI pos zero3f f.1) (atI pos zero3f f.2))))).getLastD 0 :=
        rfl
      rwa [heq, cumsum_getLastD 0 0 _ hne, zero_add] at hlpos
    exact build_cdf_spec _ hne hnn hpos
  · have hne : tris.map (fun f =>
        vlength (cross (vsub (atI pos zero3f f.1) (atI pos zero3f f.2.1))
          (vsub (atI pos zero3f f.1) (atI pos zero3f f.2.2))) / 2) ≠ [] := by
      simpa using ht
    have hnn : ∀ w ∈ tris.map (fun f =>
        vlength (cross (vsub (atI pos zero3f f.1) (atI pos zero3f f.2.1))
          (vsub (atI pos zero3f f.1) (atI pos zero3f f.2.2))) / 2), 0 ≤ w := by
      intro w hw
      rcases List.mem_map.mp hw with ⟨a, _, rfl⟩
      have := Real.sqrt_nonneg (dot (cross
        (vsub (atI pos zero3f a.1) (atI pos zero3f a.2.1))
        (vsub (atI pos zero3f a.1) (atI pos zero3f a.2.2)))
        (cross (vsub (atI pos zero3f a.1) (atI pos zero3f a.2.1))
          (vsub (atI pos zero3f a.1) (atI pos zero3f a.2.2))))
      unfold vlength
      linarith
    have hpos : 0 < (tris.map (fun f =>
        vlength (cross (vsub (atI pos zero3f f.1) (atI pos zero3f f.2.1))
          (vsub (atI pos zero3f f.1) (atI pos zero3f f.2.2))) / 2)).sum := by
      have heq : (sample_shape_cdf_triangles tris pos).2 =
          (cumsum 0 (tris.map (fun f =>
            vlength (cross (vsub (atI pos zero3f f.1) (atI pos zero3f f.2.1))
              (vsub (atI pos zero3f f.1)
                (atI pos zero3f f.2.2))) / 2))).getLastD 0 :=
        rfl
      rwa [heq, cumsum_getLastD 0 0 _ hne, zero_add] at htpos
    exact build_cdf_spec _ hne hnn hpos

/-- Witness for C4 on one point, one unit-length line, and one unit
right triangle. -/
theorem sample_shape_cdf_normalized_witness :
    ((sample_shape_cdf_points [(0 : ℤ)]
        [((0 : ℝ), 0, 0), (1, 0, 0), (0, 1, 0)]).1.Sorted
          (fun u v => u ≤ v) ∧
      (sample_shape_cdf_points [(0 : ℤ)]
        [((0 : ℝ), 0, 0), (1, 0, 0), (0, 1, 0)]).1.getLastD 0 = 1 ∧
      (sample_shape_cdf_points [(0 : ℤ)]
        [((0 : ℝ), 0, 0), (1, 0, 0), (0, 1, 0)]).2 =
          (([(0 : ℤ)]).length : ℝ)) ∧
    ((sample_shape_cdf_lines [((0 : ℤ), 1)]
        [((0 : ℝ), 0, 0), (1, 0, 0), (0, 1, 0)]).1.Sorted
          (fun u v => u ≤ v) ∧
      (sample_shape_cdf_lines [((0 : ℤ), 1)]
        [((0 : ℝ), 0, 0), (1, 0, 0), (0, 1, 0)]).1.getLastD 0 = 1 ∧
      (sample_shape_cdf_lines [((0 : ℤ), 1)]
        [((0 : ℝ), 0, 0), (1, 0, 0), (0, 1, 0)]).2 =
          (([((0 : ℤ), 1)]).map (fun f => vlength (vsub
            (atI [((0 : ℝ), 0, 0), (1, 0, 0), (0, 1, 0)] zero3f f.1)
            (atI [((0 : ℝ), 0, 0), (1, 0, 0), (0, 1, 0)] zero3f f.2)))).sum) ∧
    ((sample_shape_cdf_triangles [((0 : ℤ), 1, 2)]
        [((0 : ℝ), 0, 0), (1, 0, 0), (0, 1, 0)]).1.Sorted
          (fun u v => u ≤ v) ∧
      (sample_shape_cdf_triangles [((0 : ℤ), 1, 2)]
        [((0 : ℝ), 0, 0), (1, 0, 0), (0, 1, 0)]).1.getLastD 0 = 1 ∧
      (sample_shape_cdf_triangles [((0 : ℤ), 1, 2)]
        [((0 : ℝ), 0, 0), (1, 0, 0), (0, 1, 0)]).2 =
          (([((0 : ℤ), 1, 2)]).map (fun f => vlength (cross
            (vsub (atI [((0 : ℝ), 0, 0), (1, 0, 0), (0, 1, 0)] zero3f f.1)
              (atI [((0 : ℝ), 0, 0), (1, 0, 0), (0, 1, 0)] zero3f f.2.1))
            (vsub (atI [((0 : ℝ), 0, 0), (1, 0, 0), (0, 1, 0)] zero3f f.1)
              (atI [((0 : ℝ), 0, 0), (1, 0, 0), (0, 1, 0)] zero3f f.2.2))) /
                2)).sum) :=
  sample_shape_cdf_normalized [(0 : ℤ)] [((0 : ℤ), 1)] [((0 : ℤ), 1, 2)]
    [((0 : ℝ), 0, 0), (1, 0, 0), (0, 1, 0)]
    (by simp) (by simp) (by simp)
    (by norm_num [sample_shape_cdf_lines, build_cdf, cumsum, atI, vsub,
      vlength, dot, zero3f, List.getLastD, Int.toNat_ofNat])
    (by norm_num [sample_shape_cdf_triangles, build_cdf, cumsum, atI, vsub,
      cross, vlength, dot, zero3f, List.getLastD,
      show Int.toNat 2 = 2 from rfl])

/-- C1 fails on the code: at `lines = [(0,1)]`, `vert = [10, 20]`,
`eid = 0`, `euv = (0, 1)` the line interpolator computes
`vert[l[0]]·(1 - euv[0]) + vert[l[1]]·euv[1] = 10·1 + 20·1 = 30`, mixing
the two coordinates of `euv`; no single-parameter combination with weights
`(1-t, t)` of the endpoint attributes 10 and 20 can produce 30.  The
combined dispatcher computes the same value. -/
theorem interpolate_vert_line_mixes_coordinates :
    interpolate_vert_lines [((0 : ℤ), 1)] [(10 : ℝ), 20] 0 (0, 1) = 30 ∧
    interpolate_vert_comb ([] : List ℤ) [((0 : ℤ), 1)] [] [(10 : ℝ), 20] 0
      (0, 1) = some 30 ∧
    (∀ t : ℝ, 0 ≤ t → t ≤ 1 → (1 - t) * 10 + t * 20 ≠ 30) := by
  refine ⟨?_, ?_, ?_⟩
  · norm_num [interpolate_vert_lines, atI, smul_eq_mul,
      show Int.toNat 1 = 1 from rfl]
  · norm_num [interpolate_vert_comb, interpolate_vert_lines, atI,
      smul_eq_mul, show Int.toNat 1 = 1 from rfl]
  · intro t h0 h1 heq
    nlinarith

/-- C2 fails on the code: with both the point and the line array (or CDF)
non-empty, each combined entry point silently dispatches to the points
branch and returns its result; no error is reported to the caller. -/
theorem combined_dispatch_silently_picks_first :
    interpolate_vert_comb [(0 : ℤ)] [((0 : ℤ), 1)] [] [(10 : ℝ), 20] 0
      (0, 0) = some 10 ∧
    interpolate_vert_comb [(0 : ℤ)] [((0 : ℤ), 1)] [] [(10 : ℝ), 20] 0
      (0, 0) ≠ none ∧
    sample_shape_comb [(1 : ℝ)] [(1 : ℝ)] [] 0 (0, 0) =
      some (sample_shape_eid [(1 : ℝ)] 0, (0, 0)) ∧
    sample_shape_comb [(1 : ℝ)] [(1 : ℝ)] [] 0 (0, 0) ≠ none ∧
    sample_shape_cdf_comb [(0 : ℤ)] [((0 : ℤ), 1)] []
      [((0 : ℝ), 0, 0), (1, 0, 0)] =
        some (sample_shape_cdf_points [(0 : ℤ)] [((0 : ℝ), 0, 0), (1, 0, 0)]) ∧
    sample_shape_cdf_comb [(0 : ℤ)] [((0 : ℤ), 1)] []
      [((0 : ℝ), 0, 0), (1, 0, 0)] ≠ none := by
  refine ⟨?_, ?_, ?_, ?_, ?_, ?_⟩
  · norm_num [interpolate_vert_comb, atI]
  · intro h
    norm_num [interpolate_vert_comb] at h
    exact Option.noConfusion h
  · norm_num [sample_shape_comb]
  · intro h
    norm_num [sample_shape_comb] at h
    exact Option.noConfusion h
  · norm_num [sample_shape_cdf_comb]
  · intro h
    norm_num [sample_shape_cdf_comb] at h
    exact Option.noConfusion h

/-- C2 amended: each combined entry point dispatches to the first
populated array in the order points, lines, triangles, returning that
single-kind result and silently ignoring any other populated array; only
when all three are empty does it fail its `assert` (modelled as `none`). -/
theorem combined_dispatch_first_populated {T : Type} [AddCommMonoid T]
    [Module ℝ T] (points : List ℤ) (lines : List (ℤ × ℤ))
    (triangles : List (ℤ × ℤ × ℤ)) (pos : List Vec3)
    (pc lc tc : List ℝ) (ern : ℝ) (uvrn : Vec2)
    (vert : List T) (eid : ℤ) (euv : Vec2) :
    ((points ≠ [] → sample_shape_cdf_comb points lines triangles pos =
        some (sample_shape_cdf_points points pos)) ∧
      (points = [] → lines ≠ [] →
        sample_shape_cdf_comb points lines triangles pos =
          some (sample_shape_cdf_lines lines pos)) ∧
      (points = [] → lines = [] → triangles ≠ [] →
        sample_shape_cdf_comb points lines triangles pos =
          some (sample_shape_cdf_triangles triangles pos)) ∧
      (points = [] → lines = [] → triangles = [] →
        sample_shape_cdf_comb points lines triangles pos = none)) ∧
    ((pc ≠ [] → sample_shape_comb pc lc tc ern uvrn =
        some (sample_shape_eid pc ern, uvrn)) ∧
      (pc = [] → lc ≠ [] → sample_shape_comb pc lc tc ern uvrn =
        some ((sample_shape_line lc ern uvrn.1).1,
          ((sample_shape_line lc ern uvrn.1).2, uvrn.2))) ∧
      (pc = [] → lc = [] → tc ≠ [] → sample_shape_comb pc lc tc ern uvrn =
        some (sample_shape_triangle tc ern uvrn)) ∧
      (pc = [] → lc = [] → tc = [] →
        sample_shape_comb pc lc tc ern uvrn = none)) ∧
    ((points ≠ [] → interpolate_vert_comb points lines triangles vert eid
        euv = some (atI vert 0 (atI points 0 eid))) ∧
      (points = [] → lines ≠ [] →
        interpolate_vert_comb points lines triangles vert eid euv =
          some (interpolate_vert_lines lines vert eid euv)) ∧
      (points = [] → lines = [] → triangles ≠ [] →
        interpolate_vert_comb points lines triangles vert eid euv =
          some (interpolate_vert_triangles triangles vert eid euv)) ∧
      (points = [] → lines = [] → triangles = [] →
        interpolate_vert_comb points lines triangles vert eid euv =
          none)) := by
  refine ⟨⟨?_, ?_, ?_, ?_⟩, ⟨?_, ?_, ?_, ?_⟩, ⟨?_, ?_, ?_, ?_⟩⟩
  · intro h1
    simp [sample_shape_cdf_comb, h1]
  · intro h1 h2
    simp [sample_shape_cdf_comb, h1, h2]
  · intro h1 h2 h3
    simp [sample_shape_cdf_comb, h1, h2, h3]
  · intro h1 h2 h3
    simp [sample_shape_cdf_comb, h1, h2, h3]
  · intro h1
    simp [sample_shape_comb, h1]
  · intro h1 h2
    simp [sample_shape_comb, h1, h2]
  · intro h1 h2 h3
    simp [sample_shape_comb, h1, h2, h3]
  · intro h1 h2 h3
    simp [sample_shape_comb, h1, h2, h3]
  · intro h1
    simp [interpolate_vert_comb, h1]
  · intro h1 h2
    simp [interpolate_vert_comb, h1, h2]
  · intro h1 h2 h3
    simp [interpolate_vert_comb, h1, h2, h3]
  · intro h1 h2 h3
    simp [interpolate_vert_comb, h1, h2, h3]

/-- Witness for C2's amended dispatch at a single populated points
array. -/
theorem combined_dispatch_first_populated_witness :
    sample_shape_cdf_comb [(0 : ℤ)] [] [] [] =
      some (sample_shape_cdf_points [(0 : ℤ)] []) ∧
    interpolate_vert_comb [(0 : ℤ)] [] [] [(5 : ℝ)] 0 (0, 0) =
      some (atI [(5 : ℝ)] 0 (atI [(0 : ℤ)] 0 0)) :=
  ⟨(combined_dispatch_first_populated [(0 : ℤ)] [] [] []
      [] [] [] 0 (0, 0) [(5 : ℝ)] 0 (0, 0)).1.1 (by simp),
    (combined_dispatch_first_populated [(0 : ℤ)] [] [] []
      [] [] [] 0 (0, 0) [(5 : ℝ)] 0 (0, 0)).2.2.1 (by simp)⟩

/-- C9 fails on the code: the value-returning `compute_normals` overload
passes a default-constructed empty vector as the output view and never
resizes it, so on a one-vertex mesh with a single point element it returns
a length-0 array instead of a `vertexCount = 1` array. -/
theorem compute_normals_ret_length_zero :
    (compute_normals_ret [(0 : ℤ)] [] [] [((0 : ℝ), 0, 0)] true).length = 0 ∧
    ([((0 : ℝ), 0, 0)] : List Vec3).length = 1 := by
  constructor
  · simp [compute_normals_ret, compute_normals, setI, atI, zero3f]
  · rfl

/-! ### Edge map construction invariants -/

theorem mem_insert_iff (m : edge_map) (e : ℤ × ℤ) (c : ℤ × ℤ) :
    c ∈ (m.insert e).edges ↔ c ∈ m.edges ∨ c = edgeCanon e := by
  by_cases h : m.has_edge e
  · rw [insert_edges_of_has h]
    constructor
    · exact fun hc => Or.inl hc
    · rintro (hc | rfl)
      · exact hc
      · exact h
  · rw [insert_edges_of_not_has h]
    simp

theorem insert_keeps_canon {m : edge_map} {e : ℤ × ℤ}
    (h : ∀ c ∈ m.edges, edgeCanon c = c) :
    ∀ c ∈ (m.insert e).edges, edgeCanon c = c := by
  intro c hc
  rcases (mem_insert_iff m e c).mp hc with hc | rfl
  · exact h c hc
  · exact edgeCanon_idem e

theorem insert_keeps_nodup {m : edge_map} {e : ℤ × ℤ}
    (h : m.edges.Nodup) : (m.insert e).edges.Nodup := by
  by_cases he : m.has_edge e
  · rw [insert_edges_of_has he]
    exact h
  · rw [insert_edges_of_not_has he]
    refine List.Nodup.append h (List.nodup_singleton _) ?_
    intro x hx hx1
    rcases List.mem_singleton.mp hx1 with rfl
    exact he hx

theorem foldl_lines_inv (P : edge_map → Prop)
    (hP : ∀ m e, P m → P (m.insert e)) :
    ∀ (ls : List (ℤ × ℤ)) (m0 : edge_map), P m0 →
      P (ls.foldl (fun m l => m.insert l) m0) := by
  intro ls
  induction ls with
  | nil => exact fun m0 h0 => h0
  | cons l rest ih =>
    intro m0 h0
    rw [List.foldl_cons]
    exact ih (m0.insert l) (hP m0 l h0)

theorem foldl_tris_inv (P : edge_map → Prop)
    (hP : ∀ m e, P m → P (m.insert e)) :
    ∀ (ts : List (ℤ × ℤ × ℤ)) (m0 : edge_map), P m0 →
      P (ts.foldl (fun m t => ((m.insert (t.1, t.2.1)).insert
        (t.2.1, t.2.2)).insert (t.2.2, t.1)) m0) := by
  intro ts
  induction ts with
  | nil => exact fun m0 h0 => h0
  | cons t rest ih =>
    intro m0 h0
    rw [List.foldl_cons]
    exact ih _ (hP _ _ (hP _ _ (hP _ _ h0)))

theorem make_edge_map_canon (lines : List (ℤ × ℤ))
    (tris : List (ℤ × ℤ × ℤ)) :
    ∀ c ∈ (make_edge_map lines tris).edges, edgeCanon c = c := by
  unfold make_edge_map
  exact foldl_tris_inv (fun m => ∀ c ∈ m.edges, edgeCanon c = c)
    (fun m e h => insert_keeps_canon h) tris _
    (foldl_lines_inv (fun m => ∀ c ∈ m.edges, edgeCanon c = c)
      (fun m e h => insert_keeps_canon h) lines
      edge_map.empty (by intro c hc; cases hc))

theorem make_edge_map_nodup (lines : List (ℤ × ℤ))
    (tris : List (ℤ × ℤ × ℤ)) : (make_edge_map lines tris).edges.Nodup := by
  unfold make_edge_map
  exact foldl_tris_inv (fun m => m.edges.Nodup)
    (fun m e h => insert_keeps_nodup h) tris _
    (foldl_lines_inv (fun m => m.edges.Nodup)
      (fun m e h => insert_keeps_nodup h) lines
      edge_map.empty List.nodup_nil)

theorem foldl_lines_mem (c : ℤ × ℤ) :
    ∀ (ls : List (ℤ × ℤ)) (m0 : edge_map),
      (c ∈ (ls.foldl (fun m l => m.insert l) m0).edges ↔
        c ∈ m0.edges ∨ ∃ l ∈ ls, c = edgeCanon l) := by
  intro ls
  induction ls with
  | nil => simp
  | cons l rest ih =>
    intro m0
    rw [List.foldl_cons, ih (m0.insert l)]
    rw [mem_insert_iff]
    constructor
    · rintro ((hc | rfl) | ⟨l', hl', rfl⟩)
      · exact Or.inl hc
      · exact Or.inr ⟨l, List.mem_cons_self l rest, rfl⟩
      · exact Or.inr ⟨l', List.mem_cons_of_mem l hl', rfl⟩
    · rintro (hc | ⟨l', hl', rfl⟩)
      · exact Or.inl (Or.inl hc)
      · rcases List.mem_cons.mp hl' with rfl | hl'
        · exact Or.inl (Or.inr rfl)
        · exact Or.inr ⟨l', hl', rfl⟩

theorem foldl_tris_mem (c : ℤ × ℤ) :
    ∀ (ts : List (ℤ × ℤ × ℤ)) (m0 : edge_map),
      (c ∈ (ts.foldl (fun m t => ((m.insert (t.1, t.2.1)).insert
          (t.2.1, t.2.2)).insert (t.2.2, t.1)) m0).edges ↔
        c ∈ m0.edges ∨ ∃ t ∈ ts, c = edgeCanon (t.1, t.2.1) ∨
          c = edgeCanon (t.2.1, t.2.2) ∨ c = edgeCanon (t.2.2, t.1)) := by
  intro ts
  induction ts with
  | nil => simp
  | cons t rest ih =>
    intro m0
    rw [List.foldl_cons, ih, mem_insert_iff, mem_insert_iff, mem_insert_iff]
    constructor
    · rintro ((((hc | rfl) | rfl) | rfl) | ⟨t', ht', hc⟩)
      · exact Or.inl hc
      · exact Or.inr ⟨t, List.mem_cons_self t rest, Or.inl rfl⟩
      · exact Or.inr ⟨t, List.mem_cons_self t rest, Or.inr (Or.inl rfl)⟩
      · exact Or.inr ⟨t, List.mem_cons_self t rest, Or.inr (Or.inr rfl)⟩
      · exact Or.inr ⟨t', List.mem_cons_of_mem t ht', hc⟩
    · rintro (hc | ⟨t', ht', hc⟩)
      · exact Or.inl (Or.inl (Or.inl (Or.inl hc)))
      · rcases List.mem_cons.mp ht' with rfl | ht'
        · rcases hc with rfl | rfl | rfl
          · exact Or.inl (Or.inl (Or.inl (Or.inr rfl)))
          · exact Or.inl (Or.inl (Or.inr rfl))
          · exact Or.inl (Or.inr rfl)
        · exact Or.inr ⟨t', ht', hc⟩

theorem mem_make_edge_map (lines : List (ℤ × ℤ)) (tris : List (ℤ × ℤ × ℤ))
    (c : ℤ × ℤ) :
    c ∈ (make_edge_map lines tris).edges ↔
      (∃ l ∈ lines, c = edgeCanon l) ∨
      (∃ t ∈ tris, c = edgeCanon (t.1, t.2.1) ∨
        c = edgeCanon (t.2.1, t.2.2) ∨ c = edgeCanon (t.2.2, t.1)) := by
  unfold make_edge_map
  rw [foldl_tris_mem, foldl_lines_mem]
  simp [edge_map.empty]

theorem make_edge_map_has_line {lines : List (ℤ × ℤ)}
    {tris : List (ℤ × ℤ × ℤ)} {l : ℤ × ℤ} (hl : l ∈ lines) :
    (make_edge_map lines tris).has_edge l :=
  (mem_make_edge_map lines tris (edgeCanon l)).mpr
    (Or.inl ⟨l, hl, rfl⟩)

theorem make_edge_map_has_tri1 {lines : List (ℤ × ℤ)}
    {tris : List (ℤ × ℤ × ℤ)} {t : ℤ × ℤ × ℤ} (ht : t ∈ tris) :
    (make_edge_map lines tris).has_edge (t.1, t.2.1) :=
  (mem_make_edge_map lines tris (edgeCanon (t.1, t.2.1))).mpr
    (Or.inr ⟨t, ht, Or.inl rfl⟩)

theorem make_edge_map_has_tri2 {lines : List (ℤ × ℤ)}
    {tris : List (ℤ × ℤ × ℤ)} {t : ℤ × ℤ × ℤ} (ht : t ∈ tris) :
    (make_edge_map lines tris).has_edge (t.2.1, t.2.2) :=
  (mem_make_edge_map lines tris (edgeCanon (t.2.1, t.2.2))).mpr
    (Or.inr ⟨t, ht, Or.inr (Or.inl rfl)⟩)

theorem make_edge_map_has_tri3 {lines : List (ℤ × ℤ)}
    {tris : List (ℤ × ℤ × ℤ)} {t : ℤ × ℤ × ℤ} (ht : t ∈ tris) :
    (make_edge_map lines tris).has_edge (t.2.2, t.1) :=
  (mem_make_edge_map lines tris (edgeCanon (t.2.2, t.1))).mpr
    (Or.inr ⟨t, ht, Or.inr (Or.inr rfl)⟩)

theorem mem_lineIds {ls : List (ℤ × ℤ)} {v : ℤ} :
    v ∈ lineIds ls ↔ ∃ l ∈ ls, v = l.1 ∨ v = l.2 := by
  simp [lineIds, List.mem_flatMap]

theorem mem_triIds {ts : List (ℤ × ℤ × ℤ)} {v : ℤ} :
    v ∈ triIds ts ↔ ∃ t ∈ ts, v = t.1 ∨ v = t.2.1 ∨ v = t.2.2 := by
  simp [triIds, List.mem_flatMap]

theorem length_flatMap_const {β γ : Type} (ls : List β) (f : β → List γ)
    (k : ℕ) (h : ∀ b, (f b).length = k) :
    (ls.flatMap f).length = k * ls.length := by
  induction ls with
  | nil => simp
  | cons b rest ih =>
    rw [List.flatMap_cons, List.length_append, ih, h b, List.length_cons]
    ring

theorem make_edge_map_lookup_get (lines : List (ℤ × ℤ))
    (tris : List (ℤ × ℤ × ℤ)) (i : ℕ)
    (h : i < (make_edge_map lines tris).edges.length) :
    (make_edge_map lines tris).lookup
      ((make_edge_map lines tris).edges.get ⟨i, h⟩) = (i : ℤ) := by
  have hc : (make_edge_map lines tris).edges.get ⟨i, h⟩ ∈
      (make_edge_map lines tris).edges :=
    List.get_mem _ i h
  have hcanon := make_edge_map_canon lines tris _ hc
  have hhas : (make_edge_map lines tris).has_edge
      ((make_edge_map lines tris).edges.get ⟨i, h⟩) := by
    unfold edge_map.has_edge
    rw [hcanon]
    exact hc
  unfold edge_map.lookup
  rw [if_pos hhas, hcanon, idxOfE_get (make_edge_map_nodup lines tris) i h]

/-- C3: for a valid mesh with `n` vertices, `split_edges` emits an edge
list of length `e` (the number of distinct undirected edges) without
duplicates, all canonical, with `edges[id]` carrying exactly the edge
assigned id `id`; every vertex id in the output elements lies in
`[0, n+e)`, every new id `n+k` with `k < e` actually occurs, the original
elements are replaced by exactly two children per line and four per
triangle, and every output element references at least one new
(midpoint) vertex. -/
theorem split_edges_new_ids (n : ℤ) (lines : List (ℤ × ℤ))
    (tris : List (ℤ × ℤ × ℤ)) (hL : validLines n lines)
    (hT : validTris n tris) :
    ((split_edges n lines tris).2.2.length =
      (make_edge_map lines tris).size) ∧
    ((split_edges n lines tris).2.2.Nodup) ∧
    (∀ c ∈ (split_edges n lines tris).2.2, edgeCanon c = c) ∧
    (∀ i (h : i < (split_edges n lines tris).2.2.length),
      (make_edge_map lines tris).lookup
        ((split_edges n lines tris).2.2.get ⟨i, h⟩) = (i : ℤ)) ∧
    (∀ v ∈ lineIds (split_edges n lines tris).1 ++
        triIds (split_edges n lines tris).2.1,
      0 ≤ v ∧ v < n + ((make_edge_map lines tris).size : ℤ)) ∧
    (∀ k : ℕ, k < (make_edge_map lines tris).size →
      (n + (k : ℤ)) ∈ lineIds (split_edges n lines tris).1 ++
        triIds (split_edges n lines tris).2.1) ∧
    ((split_edges n lines tris).1.length = 2 * lines.length) ∧
    ((split_edges n lines tris).2.1.length = 4 * tris.length) ∧
    (∀ t ∈ (split_edges n lines tris).2.1, n ≤ t.2.1) ∧
    (∀ l ∈ (split_edges n lines tris).1, n ≤ l.1 ∨ n ≤ l.2) := by
  have hnd := make_edge_map_nodup lines tris
  have hcanon := make_edge_map_canon lines tris
  have hsplit1 : (split_edges n lines tris).1 = lines.flatMap (fun l =>
      [(l.1, n + (make_edge_map lines tris).lookup l),
       (n + (make_edge_map lines tris).lookup l, l.2)]) := rfl
  have hsplit2 : (split_edges n lines tris).2.1 = tris.flatMap (fun t =>
      [(t.1, n + (make_edge_map lines tris).lookup (t.1, t.2.1),
         n + (make_edge_map lines tris).lookup (t.1, t.2.2)),
       (t.2.1, n + (make_edge_map lines tris).lookup (t.2.1, t.2.2),
         n + (make_edge_map lines tris).lookup (t.2.1, t.1)),
       (t.2.2, n + (make_edge_map lines tris).lookup (t.2.2, t.1),
         n + (make_edge_map lines tris).lookup (t.2.2, t.2.1)),
       (n + (make_edge_map lines tris).lookup (t.1, t.2.1),
         n + (make_edge_map lines tris).lookup (t.2.1, t.2.2),
         n + (make_edge_map lines tris).lookup (t.2.2, t.1))]) := rfl
  have hsplit3 : (split_edges n lines tris).2.2 =
      (make_edge_map lines tris).edges := rfl
  refine ⟨rfl, by rw [hsplit3]; exact hnd, by rw [hsplit3]; exact hcanon,
    ?_, ?_, ?_, ?_, ?_, ?_, ?_⟩
  · intro i h
    exact make_edge_map_lookup_get lines tris i h
  · -- all output ids lie in [0, n + e)
    intro v hv
    rcases List.mem_append.mp hv with hv | hv
    · rw [hsplit1] at hv
      rcases mem_lineIds.mp hv with ⟨l', hl', hv'⟩
      rcases List.mem_flatMap.mp hl' with ⟨l, hl, hcl⟩
      obtain ⟨hb1, hb2, hb3, hb4⟩ := hL l hl
      obtain ⟨hk1, hk2⟩ := lookup_nonneg_lt_size (@make_edge_map_has_line lines tris _ hl)
      simp only [List.mem_cons, List.not_mem_nil, or_false] at hcl
      rcases hcl with rfl | rfl <;> rcases hv' with rfl | rfl <;>
        simp only at * <;> omega
    · rw [hsplit2] at hv
      rcases mem_triIds.mp hv with ⟨t', ht', hv'⟩
      rcases List.mem_flatMap.mp ht' with ⟨t, ht, hct⟩
      obtain ⟨⟨hb1, hb2⟩, ⟨hb3, hb4⟩, hb5, hb6⟩ := hT t ht
      obtain ⟨hk1, hk2⟩ := lookup_nonneg_lt_size (@make_edge_map_has_tri1 lines tris _ ht)
      obtain ⟨hk3, hk4⟩ := lookup_nonneg_lt_size (@make_edge_map_has_tri2 lines tris _ ht)
      obtain ⟨hk5, hk6⟩ := lookup_nonneg_lt_size (@make_edge_map_has_tri3 lines tris _ ht)
      have hk7 := lookup_canon (make_edge_map lines tris) (t.1, t.2.2)
      have hk8 : edgeCanon (t.1, t.2.2) = edgeCanon (t.2.2, t.1) :=
        edgeCanon_symm t.1 t.2.2
      have hk9 : (make_edge_map lines tris).lookup (t.1, t.2.2) =
          (make_edge_map lines tris).lookup (t.2.2, t.1) := by
        rw [← lookup_canon (make_edge_map lines tris) (t.1, t.2.2), hk8,
          lookup_canon]
      have hk10 : (make_edge_map lines tris).lookup (t.2.1, t.1) =
          (make_edge_map lines tris).lookup (t.1, t.2.1) := by
        rw [← lookup_canon (make_edge_map lines tris) (t.2.1, t.1),
          edgeCanon_symm t.2.1 t.1, lookup_canon]
      have hk11 : (make_edge_map lines tris).lookup (t.2.2, t.2.1) =
          (make_edge_map lines tris).lookup (t.2.1, t.2.2) := by
        rw [← lookup_canon (make_edge_map lines tris) (t.2.2, t.2.1),
          edgeCanon_symm t.2.2 t.2.1, lookup_canon]
      simp only [List.mem_cons, List.not_mem_nil, or_false] at hct
      rcases hct with rfl | rfl | rfl | rfl <;>
        rcases hv' with rfl | rfl | rfl <;> simp only at * <;> omega
  · -- every new id n + k with k < e occurs in the output
    intro k hk
    have hklen : k < (make_edge_map lines tris).edges.length := hk
    have hcmem : (make_edge_map lines tris).edges.get ⟨k, hklen⟩ ∈
        (make_edge_map lines tris).edges := List.get_mem _ k hklen
    have hidx : idxOfE (make_edge_map lines tris).edges
        ((make_edge_map lines tris).edges.get ⟨k, hklen⟩) = k :=
      idxOfE_get hnd k hklen
    rcases (mem_make_edge_map lines tris _).mp hcmem with
      ⟨l, hl, hceq⟩ | ⟨t, ht, hceq⟩
    · have hlk : (make_edge_map lines tris).lookup l = (k : ℤ) := by
        unfold edge_map.lookup
        rw [if_pos (@make_edge_map_has_line lines tris _ hl), ← hceq, hidx]
      refine List.mem_append.mpr (Or.inl ?_)
      rw [hsplit1]
      refine mem_lineIds.mpr ⟨(l.1,
        n + (make_edge_map lines tris).lookup l), ?_, Or.inr (by rw [hlk])⟩
      exact List.mem_flatMap.mpr ⟨l, hl, by simp⟩
    · refine List.mem_append.mpr (Or.inr ?_)
      rw [hsplit2]
      rcases hceq with hceq | hceq | hceq
      · have hlk : (make_edge_map lines tris).lookup (t.1, t.2.1) =
            (k : ℤ) := by
          unfold edge_map.lookup
          rw [if_pos (@make_edge_map_has_tri1 lines tris _ ht), ← hceq,
            hidx]
        refine mem_triIds.mpr ⟨(t.1,
          n + (make_edge_map lines tris).lookup (t.1, t.2.1),
          n + (make_edge_map lines tris).lookup (t.1, t.2.2)), ?_,
          Or.inr (Or.inl (by rw [hlk]))⟩
        exact List.mem_flatMap.mpr ⟨t, ht, by simp⟩
      · have hlk : (make_edge_map lines tris).lookup (t.2.1, t.2.2) =
            (k : ℤ) := by
          unfold edge_map.lookup
          rw [if_pos (@make_edge_map_has_tri2 lines tris _ ht), ← hceq,
            hidx]
        refine mem_triIds.mpr ⟨(t.2.1,
          n + (make_edge_map lines tris).lookup (t.2.1, t.2.2),
          n + (make_edge_map lines tris).lookup (t.2.1, t.1)), ?_,
          Or.inr (Or.inl (by rw [hlk]))⟩
        exact List.mem_flatMap.mpr ⟨t, ht, by simp⟩
      · have hlk : (make_edge_map lines tris).lookup (t.2.2, t.1) =
            (k : ℤ) := by
          unfold edge_map.lookup
          rw [if_pos (@make_edge_map_has_tri3 lines tris _ ht), ← hceq,
            hidx]
        refine mem_triIds.mpr ⟨(t.2.2,
          n + (make_edge_map lines tris).lookup (t.2.2, t.1),
          n + (make_edge_map lines tris).lookup (t.2.2, t.2.1)), ?_,
          Or.inr (Or.inl (by rw [hlk]))⟩
        exact List.mem_flatMap.mpr ⟨t, ht, by simp⟩
  · rw [hsplit1]
    exact length_flatMap_const lines _ 2 (fun b => rfl)
  · rw [hsplit2]
    exact length_flatMap_const tris _ 4 (fun b => rfl)
  · -- every output triangle has a new id as its second vertex
    intro t' ht'
    rw [hsplit2] at ht'
    rcases List.mem_flatMap.mp ht' with ⟨t, ht, hct⟩
    obtain ⟨hk1, _⟩ := lookup_nonneg_lt_size (@make_edge_map_has_tri1 lines tris _ ht)
    obtain ⟨hk3, _⟩ := lookup_nonneg_lt_size (@make_edge_map_has_tri2 lines tris _ ht)
    obtain ⟨hk5, _⟩ := lookup_nonneg_lt_size (@make_edge_map_has_tri3 lines tris _ ht)
    simp only [List.mem_cons, List.not_mem_nil, or_false] at hct
    rcases hct with rfl | rfl | rfl | rfl <;> simp only at * <;> omega
  · -- every output line has a new id as an endpoint
    intro l' hl'
    rw [hsplit1] at hl'
    rcases List.mem_flatMap.mp hl' with ⟨l, hl, hcl⟩
    obtain ⟨hk1, _⟩ := lookup_nonneg_lt_size (@make_edge_map_has_line lines tris _ hl)
    simp only [List.mem_cons, List.not_mem_nil, or_false] at hcl
    rcases hcl with rfl | rfl
    · right
      simp only
      omega
    · left
      simp only
      omega

/-- Witness for C3 on the single-triangle mesh. -/
theorem split_edges_new_ids_witness :
    ((split_edges 3 [] [((0 : ℤ), 1, 2)]).2.2.length =
      (make_edge_map [] [((0 : ℤ), 1, 2)]).size) ∧
    ((split_edges 3 [] [((0 : ℤ), 1, 2)]).2.2.Nodup) ∧
    (∀ c ∈ (split_edges 3 [] [((0 : ℤ), 1, 2)]).2.2, edgeCanon c = c) ∧
    (∀ i (h : i < (split_edges 3 [] [((0 : ℤ), 1, 2)]).2.2.length),
      (make_edge_map [] [((0 : ℤ), 1, 2)]).lookup
        ((split_edges 3 [] [((0 : ℤ), 1, 2)]).2.2.get ⟨i, h⟩) = (i : ℤ)) ∧
    (∀ v ∈ lineIds (split_edges 3 [] [((0 : ℤ), 1, 2)]).1 ++
        triIds (split_edges 3 [] [((0 : ℤ), 1, 2)]).2.1,
      0 ≤ v ∧ v < 3 + ((make_edge_map [] [((0 : ℤ), 1, 2)]).size : ℤ)) ∧
    (∀ k : ℕ, k < (make_edge_map [] [((0 : ℤ), 1, 2)]).size →
      ((3 : ℤ) + (k : ℤ)) ∈ lineIds (split_edges 3 [] [((0 : ℤ), 1, 2)]).1 ++
        triIds (split_edges 3 [] [((0 : ℤ), 1, 2)]).2.1) ∧
    ((split_edges 3 [] [((0 : ℤ), 1, 2)]).1.length = 2 * ([] : List (ℤ × ℤ)).length) ∧
    ((split_edges 3 [] [((0 : ℤ), 1, 2)]).2.1.length =
      4 * ([((0 : ℤ), 1, 2)]).length) ∧
    (∀ t ∈ (split_edges 3 [] [((0 : ℤ), 1, 2)]).2.1, (3 : ℤ) ≤ t.2.1) ∧
    (∀ l ∈ (split_edges 3 [] [((0 : ℤ), 1, 2)]).1,
      (3 : ℤ) ≤ l.1 ∨ (3 : ℤ) ≤ l.2) :=
  split_edges_new_ids 3 [] [((0 : ℤ), 1, 2)] (by intro l hl; cases hl)
    (by
      intro t ht
      rw [List.mem_singleton] at ht
      subst ht
      decide)
